import Mathlib

set_option linter.unusedSectionVars false

/-!
Shallow embedding of the embedded-document synchronization core of
volarjs/plugins, translated from:

* `src/packages/markdown/index.ts` (sync, reconciliation, file watcher,
  getTextDocument, create-time asserts) and the older variant
  `src/packages/markdown/src/index.ts` (explicit pre-order walk);
* `src/packages/json/index.ts` (`getJsonDocument` snapshot cache);
* `src/packages/vetur/index.ts` (`getHtmlDocument` snapshot cache);
* the PositionMapper contract consumed by `src/packages/pug/src/services/hover.ts`
  (the implementation lives in `@volar/source-map`, outside this repository,
  so it is modelled from the spec, section 4.1).

External collaborators (document provider, project host, URI derivation) are
modelled as explicit data and functions; JavaScript `Map` objects are modelled
as association lists with `Map` semantics (insertion order preserved, `set` on
an existing key updates in place, `set` on a fresh key appends).
-/

/-- A text document as returned by the host document provider
(`vscode-languageserver-textdocument`): immutable text plus a version. -/
structure TextDocument where
  uri : String
  languageId : String
  version : Nat
  text : String
deriving DecidableEq

/-- A snapshot reference owned by a source file or virtual code. -/
structure Snapshot where
  version : Nat
  text : String
deriving DecidableEq

/-- `context.documents.get(uri, languageId, snapshot)`: the host document
provider materialises the `TextDocument` for a snapshot.  Modelled as the
evident constructor (external collaborator `DocumentProvider`). -/
def documentsGet (uri languageId : String) (snap : Snapshot) : TextDocument :=
  { uri := uri, languageId := languageId, version := snap.version, text := snap.text }

/-- A virtual code node (`VirtualCode` of @volar/language-service): id,
languageId, snapshot, and the nested embedded codes (an arbitrary tree). -/
inductive Code where
  | node (cid : String) (languageId : String) (snapshot : Snapshot) (embeddedCodes : List Code)

def Code.cid : Code → String
  | .node i _ _ _ => i

def Code.languageId : Code → String
  | .node _ l _ _ => l

def Code.snapshot : Code → Snapshot
  | .node _ _ s _ => s

def Code.embeddedCodes : Code → List Code
  | .node _ _ _ es => es

mutual
/-- `forEachEmbeddedCode` of @volar/language-service (its body is not under
`src/`): yields a virtual code and then, recursively, all of its embedded
codes — the same pre-order walk written out explicitly in
`src/packages/markdown/src/index.ts` lines 151-155
(`virtualFiles.push(embedded); embedded.embeddedFiles.forEach(walk)`). -/
def forEachEmbeddedCode : Code → List Code
  | .node i l s es => .node i l s es :: forEachEmbeddedCodeList es

/-- Pre-order walk of a list of sibling virtual codes, left to right. -/
def forEachEmbeddedCodeList : List Code → List Code
  | [] => []
  | c :: cs => forEachEmbeddedCode c ++ forEachEmbeddedCodeList cs
end

/-- One entry of a `DocumentSelector`: either a plain language-id string or an
object with a `language` field. -/
inductive Sel where
  | plain (s : String)
  | obj (language : String)
deriving DecidableEq

/-- `matchDocument` from `src/packages/markdown/index.ts` lines 356-363,
applied to the `languageId` of the candidate: a node matches if some selector
entry equals its languageId, either as a plain string or via `.language`. -/
def matchLanguage (selector : List Sel) (languageId : String) : Bool :=
  selector.any fun sel =>
    match sel with
    | .plain s => s == languageId
    | .obj l => l == languageId

/-- Modelled from the spec: `context.documents.getVirtualCodeUri(sourceId,
codeId)` (its body lives in @volar/language-service, not under `src/`) —
a URI derived from the owning source file id and the embedded code id,
"stable per node id, independent of traversal order". -/
def getVirtualCodeUri (sourceId codeId : String) : String :=
  sourceId ++ "#" ++ codeId

/-- A source file of the project (`SourceScript` in the host): uri/id,
languageId, snapshot, and optionally a generated root virtual code. -/
structure SourceFile where
  sid : String
  languageId : String
  snapshot : Snapshot
  generated : Option Code

/-- The external project host: presence of the typescript language service,
the result of `languageServiceHost.getProjectVersion?.()` (`none` when the
method is absent), and the source files behind `getScriptFileNames()`. -/
structure Project where
  hasTypescript : Bool
  version : Option String
  sourceFiles : List SourceFile

section MapModel

variable {α ν : Type} [BEq α]

/-- `Map.prototype.get`, on the association-list model of a JS `Map`. -/
def mapGet (m : List (α × ν)) (k : α) : Option ν :=
  (m.find? fun p => p.1 == k).map Prod.snd

/-- `Map.prototype.has`. -/
def mapHas (m : List (α × ν)) (k : α) : Bool :=
  m.any fun p => p.1 == k

/-- `Map.prototype.set`: updates the entry in place when the key is present
(keeping its position), appends a fresh entry otherwise. -/
def mapSet : List (α × ν) → α → ν → List (α × ν)
  | [], k, v => [(k, v)]
  | p :: m, k, v => if p.1 == k then (k, v) :: m else p :: mapSet m k v

/-- `Map.prototype.delete`. -/
def mapDelete (m : List (α × ν)) (k : α) : List (α × ν) :=
  m.filter fun p => !(p.1 == k)

/-- The keys of a map are pairwise distinct (always true of a JS `Map`;
an invariant of every reachable model state). -/
def nodupKeys (m : List (α × ν)) : Prop := (m.map Prod.fst).Nodup

end MapModel

/-- The `syncedVersions : Map<string, TextDocument>` of the markdown plugin. -/
abbrev SyncedMap := List (String × TextDocument)

/-- Every value of the map is a document whose `uri` equals its key — true of
`syncedVersions` and `newVersions` because every insertion is
`newVersions.set(document.uri, document)`. -/
def coherentMap (m : SyncedMap) : Prop := ∀ p ∈ m, (p.2).uri = p.1

/-- A document event fired on one of the three emitters
(`onDidCreateMarkdownDocument`, `onDidChangeMarkdownDocument`,
`onDidDeleteMarkdownDocument`). -/
inductive Event where
  | created (document : TextDocument)
  | changed (document : TextDocument)
  | deleted (uri : String)
deriving DecidableEq

/-- The URI an event is about (delete events carry the URI directly). -/
def eventUri : Event → String
  | .created d => d.uri
  | .changed d => d.uri
  | .deleted u => u

/-- One iteration of the `getScriptFileNames()` loop in `sync`
(`src/packages/markdown/index.ts` lines 157-175): a source file with a
generated tree contributes every matching virtual code of the pre-order
walk, keyed by the derived URI; a source file without one is itself tested
against the selector. -/
def syncFile (selector : List Sel) (acc : SyncedMap) (sf : SourceFile) : SyncedMap :=
  match sf.generated with
  | some code =>
    (forEachEmbeddedCode code).foldl
      (fun acc vc =>
        if matchLanguage selector vc.languageId then
          let uri := getVirtualCodeUri sf.sid vc.cid
          let document := documentsGet uri vc.languageId vc.snapshot
          mapSet acc document.uri document
        else acc)
      acc
  | none =>
    let document := documentsGet sf.sid sf.languageId sf.snapshot
    if matchLanguage selector document.languageId then mapSet acc document.uri document
    else acc

/-- The freshly built `newVersions` map of `sync`. -/
def computeNewVersions (selector : List Sel) (files : List SourceFile) : SyncedMap :=
  files.foldl (syncFile selector) []

/-- First reconciliation loop of `sync` (lines 177-185): for each entry of
`newVersions`, read the old entry, `set` the new one, and fire `changed`
(old present) or `created` (old absent).  The trace records, next to each
event, the `syncedVersions` map as it stands when the emitter fires —
what a listener invoked at that point observes. -/
def phase1 : SyncedMap → SyncedMap → SyncedMap × List (Event × SyncedMap)
  | synced, [] => (synced, [])
  | synced, (uri, document) :: rest =>
    let old := mapGet synced uri
    let synced1 := mapSet synced uri document
    let e : Event := if old.isSome then .changed document else .created document
    let step := phase1 synced1 rest
    (step.1, (e, synced1) :: step.2)

/-- Second reconciliation loop of `sync` (lines 187-192): for each key of the
old `syncedVersions` snapshot absent from `newVersions`, `delete` it and fire
`deleted`.  The trace again records the map as observed at each fire. -/
def phase2 (newVersions : SyncedMap) : SyncedMap → List String → SyncedMap × List (Event × SyncedMap)
  | synced, [] => (synced, [])
  | synced, uri :: rest =>
    if mapHas newVersions uri then phase2 newVersions synced rest
    else
      let synced1 := mapDelete synced uri
      let step := phase2 newVersions synced1 rest
      (step.1, (Event.deleted uri, synced1) :: step.2)

/-- Both reconciliation loops, instrumented with the observed map at each
event.  `oldVersions` is the key set snapshot taken before the walk
(line 154). -/
def reconcileI (synced newVersions : SyncedMap) : SyncedMap × List (Event × SyncedMap) :=
  let oldVersions := synced.map Prod.fst
  let step1 := phase1 synced newVersions
  let step2 := phase2 newVersions step1.1 oldVersions
  (step2.1, step1.2 ++ step2.2)

/-- The reconciliation as seen from outside: final map and fired events. -/
def reconcile (synced newVersions : SyncedMap) : SyncedMap × List Event :=
  ((reconcileI synced newVersions).1, (reconcileI synced newVersions).2.map Prod.fst)

/-- The mutable closure state of the plugin instance: `lastProjectVersion`
and `syncedVersions`. -/
structure TrackerState where
  lastProjectVersion : Option String
  syncedVersions : SyncedMap
deriving DecidableEq

/-- State right after `create` runs: `lastProjectVersion` undefined and an
empty `syncedVersions` map. -/
def initialTracker : TrackerState :=
  { lastProjectVersion := none, syncedVersions := [] }

/-- `sync` from `src/packages/markdown/index.ts` lines 140-193: bail out
without typescript; read the project version and no-op when it is defined
and unchanged; otherwise rebuild `newVersions`, reconcile, and record the
version. -/
def sync (selector : List Sel) (p : Project) (st : TrackerState) :
    TrackerState × List Event :=
  if !p.hasTypescript then (st, [])
  else
    let newProjectVersion := p.version
    let shouldUpdate := newProjectVersion.isNone || !(newProjectVersion == st.lastProjectVersion)
    if !shouldUpdate then (st, [])
    else
      let newVersions := computeNewVersions selector p.sourceFiles
      let step := reconcile st.syncedVersions newVersions
      ({ lastProjectVersion := newProjectVersion, syncedVersions := step.1 }, step.2)

/-- `getAllMarkdownDocuments` (lines 89-93): run `sync`, then return
`syncedVersions.values()`. -/
def getAllMarkdownDocuments (selector : List Sel) (p : Project) (st : TrackerState) :
    TrackerState × List TextDocument :=
  let step := sync selector p st
  (step.1, step.1.syncedVersions.map Prod.snd)

/-- A sequence of `sync` calls against successive project states, from a
given tracker state; returns the final state and all fired events in order. -/
def syncTrace (selector : List Sel) : TrackerState → List Project → TrackerState × List Event
  | st, [] => (st, [])
  | st, p :: ps =>
    let step := sync selector p st
    let rest := syncTrace selector step.1 ps
    (rest.1, step.2 ++ rest.2)

/-- The documents a source file contributes to `newVersions`, in traversal
order (pre-order walk for a generated tree, the file itself otherwise) —
the candidates of spec section 4.3 step 2. -/
def candidateDocs (selector : List Sel) (sf : SourceFile) : List TextDocument :=
  match sf.generated with
  | some code =>
    (forEachEmbeddedCode code).filterMap fun vc =>
      if matchLanguage selector vc.languageId then
        some (documentsGet (getVirtualCodeUri sf.sid vc.cid) vc.languageId vc.snapshot)
      else none
  | none =>
    let document := documentsGet sf.sid sf.languageId sf.snapshot
    if matchLanguage selector document.languageId then [document] else []

/-- All candidate documents of the project, in the order `sync` inserts them. -/
def matchedDocs (selector : List Sel) (files : List SourceFile) : List TextDocument :=
  files.flatMap (candidateDocs selector)

/-- Inserting a list of documents into a map the way `sync` does:
`newVersions.set(document.uri, document)` for each in order. -/
def insertDocs (acc : SyncedMap) (ds : List TextDocument) : SyncedMap :=
  ds.foldl (fun m d => mapSet m d.uri d) acc

/-! ### File watcher bridge -/

/-- `FileChangeType` of the LSP protocol (Created = 1, Changed = 2,
Deleted = 3). -/
inductive FileChangeType where
  | created
  | changed
  | deleted
deriving DecidableEq

/-- One entry of `event.changes` in an `onDidChangeWatchedFiles` batch. -/
structure FileChange where
  ctype : FileChangeType
  uri : String
deriving DecidableEq

/-- `context.documents.getVirtualCodeByUri(uri)[0]` restricted to one source
file: the first virtual code of the pre-order walk whose derived URI is the
requested one. -/
def findCodeByUri (sf : SourceFile) (uri : String) : Option Code :=
  match sf.generated with
  | some code =>
    (forEachEmbeddedCode code).find? fun vc => getVirtualCodeUri sf.sid vc.cid == uri
  | none => none

/-- `context.documents.getVirtualCodeByUri(uri)[0]` over the whole project. -/
def getVirtualCodeByUri (p : Project) (uri : String) : Option Code :=
  p.sourceFiles.findSome? fun sf => findCodeByUri sf uri

/-- `getTextDocument` from `src/packages/markdown/index.ts` lines 340-351:
optionally resolve a virtual code for the URI, else fall back to
`context.language.files.get(uri)`; `none` when the URI resolves to neither. -/
def getTextDocument (p : Project) (uri : String) (includeVirtualFile : Bool) :
    Option TextDocument :=
  match (if includeVirtualFile then getVirtualCodeByUri p uri else none) with
  | some vc => some (documentsGet uri vc.languageId vc.snapshot)
  | none =>
    match p.sourceFiles.find? (fun sf => sf.sid == uri) with
    | some sf => some (documentsGet uri sf.languageId sf.snapshot)
    | none => none

/-- One arm of the `switch` in the `onDidChangeWatchedFiles` handler
(`src/packages/markdown/index.ts` lines 64-87): Changed and Created fire only
when the URI resolves to a document (`includeVirtualFile` is `false`);
Deleted fires unconditionally with the parsed URI. -/
def handleFileChange (p : Project) (change : FileChange) : List Event :=
  match change.ctype with
  | .changed =>
    match getTextDocument p change.uri false with
    | some document => [Event.changed document]
    | none => []
  | .created =>
    match getTextDocument p change.uri false with
    | some document => [Event.created document]
    | none => []
  | .deleted => [Event.deleted change.uri]

/-- The whole watcher callback: the `for (const change of event.changes)`
loop, firing per change. -/
def fileWatcherHandle (p : Project) (changes : List FileChange) : List Event :=
  changes.flatMap (handleFileChange p)

/-! ### Per-URI event alternation -/

/-- The events of a stream that concern one URI. -/
def eventsFor (uri : String) (events : List Event) : List Event :=
  events.filter fun e => eventUri e == uri

/-- Run the created/changed/deleted alternation automaton: the `Bool` is
"currently tracked"; `created` is legal only when untracked, `changed` and
`deleted` only when tracked; returns the final trackedness, or `none` as soon
as the sequence breaks the alternation discipline. -/
def runAlt : Bool → List Event → Option Bool
  | alive, [] => some alive
  | false, Event.created _ :: rest => runAlt true rest
  | true, Event.changed _ :: rest => runAlt true rest
  | true, Event.deleted _ :: rest => runAlt false rest
  | _, _ => none

/-- What a listener fired with event `e` observes in `syncedVersions` at that
moment: the entry for a created/changed document is already its new value,
the entry for a deleted URI is already gone. -/
def observedOk : Event × SyncedMap → Prop
  | (Event.created d, m) => mapGet m d.uri = some d
  | (Event.changed d, m) => mapGet m d.uri = some d
  | (Event.deleted u, m) => mapGet m u = none

/-! ### Construction-time capability asserts -/

/-- Presence of the two external capabilities destructured from
`context.env` at construction time. -/
structure Env where
  hasFs : Bool
  hasOnDidChangeWatchedFiles : Bool
deriving DecidableEq

/-- `assert` from `src/packages/markdown/index.ts` lines 15-19: throw
`Error(message)` when the condition is falsy. -/
def assertCapability (condition : Bool) (message : String) : Except String Unit :=
  if condition then Except.ok () else Except.error message

/-- The construction prefix of `create(context)` (lines 35-42): the two
asserts run before any tracker state exists; a thrown assert aborts with the
error message, otherwise the instance starts from `initialTracker`. -/
def createInstance (env : Env) : Except String TrackerState :=
  match assertCapability env.hasFs "context.env.fs must be defined" with
  | Except.error e => Except.error e
  | Except.ok _ =>
    match assertCapability env.hasOnDidChangeWatchedFiles
        "context.env.fs.onDidChangeWatchedFiles must be defined" with
    | Except.error e => Except.error e
    | Except.ok _ => Except.ok initialTracker

/-! ### Snapshot caches (json and vetur) -/

/-- A document as the json/vetur caches see it: `oid` models JavaScript
object identity (the `WeakMap` key); a `TextDocument` object can be updated
in place, changing `version` and `text` while keeping its identity. -/
structure SimpleDoc where
  oid : Nat
  languageId : String
  version : Nat
  text : String
deriving DecidableEq

/-- The derived parse produced by `jsonLs.parseJSONDocument` (external
library): determined by the text it parsed; the version is carried along to
distinguish parses of different revisions. -/
structure JSONDocument where
  parsedText : String
  parsedVersion : Nat
deriving DecidableEq

/-- `jsonLs.parseJSONDocument(textDocument)` (external collaborator). -/
def parseJSONDocument (d : SimpleDoc) : JSONDocument :=
  { parsedText := d.text, parsedVersion := d.version }

/-- `getJsonDocument` from `src/packages/json/index.ts` lines 201-219:
return nothing for a non-matching document; return the cached parse when the
cached version equals the document's version; otherwise parse anew and
replace the cache entry.  The `WeakMap` is modelled as a map keyed by object
identity. -/
def getJsonDocument (selector : List Sel) (cache : List (Nat × (Nat × JSONDocument)))
    (d : SimpleDoc) : Option JSONDocument × List (Nat × (Nat × JSONDocument)) :=
  if !matchLanguage selector d.languageId then (none, cache)
  else
    match mapGet cache d.oid with
    | some (cacheVersion, cacheDoc) =>
      if cacheVersion == d.version then (some cacheDoc, cache)
      else
        let doc := parseJSONDocument d
        (some doc, mapSet cache d.oid (d.version, doc))
    | none =>
      let doc := parseJSONDocument d
      (some doc, mapSet cache d.oid (d.version, doc))

/-- The derived parse produced by `htmlLs.parseHTMLDocument`. -/
structure HTMLDocument where
  parsedText : String
deriving DecidableEq

/-- `htmlLs.parseHTMLDocument(document)` (external collaborator). -/
def parseHTMLDocument (d : SimpleDoc) : HTMLDocument :=
  { parsedText := d.text }

/-- `getHtmlDocument` from `src/packages/vetur/index.ts` lines 282-296:
nothing for non-html documents; otherwise the cached parse if the object is
known, else parse and store.  There is no version check: the cache is keyed
purely by object identity. -/
def getHtmlDocument (cache : List (Nat × HTMLDocument)) (d : SimpleDoc) :
    Option HTMLDocument × List (Nat × HTMLDocument) :=
  if !(d.languageId == "html") then (none, cache)
  else
    match mapGet cache d.oid with
    | some h => (some h, cache)
    | none =>
      let h := parseHTMLDocument d
      (some h, mapSet cache d.oid h)

/-! ### PositionMapper (modelled from the spec, section 4.1) -/

/-- Modelled from the spec: a `MappedSpan` of the PositionMapper
(implementation in @volar/source-map, not under `src/`): a pair of half-open
ranges asserting verbatim correspondence. -/
structure MappedSpan where
  sourceStart : Nat
  sourceEnd : Nat
  generatedStart : Nat
  generatedEnd : Nat
deriving DecidableEq

/-- Left-closed right-open containment on the source side. -/
def spanContainsSource (s : MappedSpan) (p : Nat) : Bool :=
  decide (s.sourceStart ≤ p) && decide (p < s.sourceEnd)

/-- Left-closed right-open containment on the generated side. -/
def spanContainsGenerated (s : MappedSpan) (g : Nat) : Bool :=
  decide (s.generatedStart ≤ g) && decide (g < s.generatedEnd)

/-- Modelled from the spec: `toGeneratedPosition` — find the span whose
source range contains the position and transfer the offset; `none` in a gap. -/
def toGeneratedPosition (spans : List MappedSpan) (p : Nat) : Option Nat :=
  (spans.find? fun s => spanContainsSource s p).map fun s =>
    s.generatedStart + (p - s.sourceStart)

/-- Modelled from the spec: `toSourcePosition`, the mirror lookup. -/
def toSourcePosition (spans : List MappedSpan) (g : Nat) : Option Nat :=
  (spans.find? fun s => spanContainsGenerated s g).map fun s =>
    s.sourceStart + (g - s.generatedStart)

/-- The span-list invariant of the spec data model: verbatim correspondence
(equal lengths) and spans sorted, non-overlapping, increasing in both
coordinate spaces. -/
def wfSpans (spans : List MappedSpan) : Prop :=
  (∀ s ∈ spans, s.sourceEnd - s.sourceStart = s.generatedEnd - s.generatedStart) ∧
  spans.Pairwise fun a b => a.sourceEnd ≤ b.sourceStart ∧ a.generatedEnd ≤ b.generatedStart

example :
    sync [Sel.plain "markdown"]
      { hasTypescript := true, version := none,
        sourceFiles := [{ sid := "f.md", languageId := "markdown",
                          snapshot := { version := 1, text := "x" }, generated := none }] }
      initialTracker
    = ({ lastProjectVersion := none,
         syncedVersions := [("f.md", { uri := "f.md", languageId := "markdown", version := 1, text := "x" })] },
       [Event.created { uri := "f.md", languageId := "markdown", version := 1, text := "x" }]) := by
  decide

example : toGeneratedPosition [⟨5, 15, 0, 10⟩] 8 = some 3 := by decide

example : toGeneratedPosition [⟨5, 15, 0, 10⟩] 20 = none := by decide

/-! ### Concrete instances used by witnesses and counterexamples -/

/-- The default markdown selector `['markdown']`. -/
def selMd : List Sel := [Sel.plain "markdown"]

/-- A plain markdown source file with no generated tree. -/
def fileMd : SourceFile :=
  { sid := "f.md", languageId := "markdown", snapshot := { version := 1, text := "x" },
    generated := none }

/-- A project whose host exposes no `getProjectVersion` method (token `none`). -/
def projNoVersion : Project :=
  { hasTypescript := true, version := none, sourceFiles := [fileMd] }

/-- The same project with a defined version token. -/
def projV : Project :=
  { hasTypescript := true, version := some "v1", sourceFiles := [fileMd] }

/-- An embedded markdown code nested under a root virtual code. -/
def codeInner : Code := Code.node "md2" "markdown" { version := 3, text := "inner" } []

/-- A root virtual code of a non-markdown language owning `codeInner`. -/
def codeRoot : Code := Code.node "root" "vue" { version := 2, text := "roottext" } [codeInner]

/-- A source file owning a generated tree. -/
def fileVue : SourceFile :=
  { sid := "a.vue", languageId := "vue", snapshot := { version := 2, text := "roottext" },
    generated := some codeRoot }

/-- A two-file project mixing a plain markdown file and an embedded tree. -/
def projMix : Project :=
  { hasTypescript := true, version := some "v1", sourceFiles := [fileMd, fileVue] }

/-- The document of `codeInner` as the tracker materialises it. -/
def docInner : TextDocument :=
  documentsGet "a.vue#md2" "markdown" { version := 3, text := "inner" }

def docA1 : TextDocument := { uri := "a", languageId := "markdown", version := 1, text := "A1" }

def docA2 : TextDocument := { uri := "a", languageId := "markdown", version := 2, text := "A2" }

def docB1 : TextDocument := { uri := "b", languageId := "markdown", version := 1, text := "B1" }

def docC1 : TextDocument := { uri := "c", languageId := "markdown", version := 1, text := "C1" }

/-- An old tracked set holding `a` and `c`. -/
def oldSetW : SyncedMap := [("a", docA1), ("c", docC1)]

/-- A new set holding `a` (updated) and `b` (fresh). -/
def newSetW : SyncedMap := [("a", docA2), ("b", docB1)]

/-- Old/new sets for the partial-observation counterexample. -/
def oldSetC : SyncedMap := [("a", docA1)]

def newSetC : SyncedMap := [("b", docB1)]

/-- The json document selector. -/
def selJson : List Sel := [Sel.plain "json"]

def sdoc1 : SimpleDoc := { oid := 0, languageId := "json", version := 1, text := "x" }

/-- The same object identity as `sdoc1` after an in-place edit bumping the
version. -/
def sdoc2 : SimpleDoc := { oid := 0, languageId := "json", version := 2, text := "y" }

def hdoc1 : SimpleDoc := { oid := 0, languageId := "html", version := 1, text := "h" }

/-- The json cache holding the version-1 parse of object 0. -/
def cacheJ : List (Nat × (Nat × JSONDocument)) := [(0, (1, parseJSONDocument sdoc1))]

/-- The single mapped span of the spec example: source `[5,15)` to
generated `[0,10)`. -/
def spansW : List MappedSpan :=
  [{ sourceStart := 5, sourceEnd := 15, generatedStart := 0, generatedEnd := 10 }]

/-! ### Map model lemmas -/

section MapLemmas

variable {α ν : Type} [BEq α] [LawfulBEq α]

theorem mapGet_nil (k : α) : mapGet ([] : List (α × ν)) k = none := rfl

theorem mapGet_cons (a : α) (b : ν) (m : List (α × ν)) (k : α) :
    mapGet ((a, b) :: m) k = if a == k then some b else mapGet m k := by
  cases h : a == k <;> simp [mapGet, List.find?, h]

theorem mapHas_cons (a : α) (b : ν) (m : List (α × ν)) (k : α) :
    mapHas ((a, b) :: m) k = ((a == k) || mapHas m k) := by
  simp [mapHas]

theorem mapHas_iff_mem (m : List (α × ν)) (k : α) :
    mapHas m k = true ↔ k ∈ m.map Prod.fst := by
  simp only [mapHas, List.any_eq_true, List.mem_map, beq_iff_eq]

theorem mapGet_isSome_eq_mapHas (m : List (α × ν)) (k : α) :
    (mapGet m k).isSome = mapHas m k := by
  induction m with
  | nil => rfl
  | cons p m ih =>
    rw [show p = (p.1, p.2) from rfl, mapGet_cons, mapHas_cons]
    cases h : p.1 == k <;> simp [h, ih]

theorem mapGet_eq_none_iff (m : List (α × ν)) (k : α) :
    mapGet m k = none ↔ k ∉ m.map Prod.fst := by
  rw [← mapHas_iff_mem, ← mapGet_isSome_eq_mapHas]
  cases h : mapGet m k <;> simp [h]

theorem mapGet_mem (m : List (α × ν)) (k : α) (v : ν) (h : mapGet m k = some v) :
    (k, v) ∈ m := by
  unfold mapGet at h
  cases hf : m.find? fun p => p.1 == k with
  | none => rw [hf] at h; simp at h
  | some p =>
    rw [hf] at h
    have hval : p.2 = v := by simpa using h
    have hmem := List.mem_of_find?_eq_some hf
    have hkey : p.1 = k := by
      have hb := List.find?_some hf
      simp only [beq_iff_eq] at hb
      exact hb
    have hp : p = (k, v) := by
      obtain ⟨p1, p2⟩ := p
      simp only at hval hkey
      rw [hkey, hval]
    rwa [hp] at hmem

theorem mem_mapGet_of_nodup (m : List (α × ν)) (k : α) (v : ν)
    (hnd : nodupKeys m) (h : (k, v) ∈ m) : mapGet m k = some v := by
  induction m with
  | nil => simp at h
  | cons p m ih =>
    rw [show p = (p.1, p.2) from rfl, mapGet_cons]
    rcases List.mem_cons.mp h with heq | hmem
    · rw [← heq]
      simp
    · have hk : k ∈ m.map Prod.fst := List.mem_map.mpr ⟨(k, v), hmem, rfl⟩
      have hp1 : p.1 ≠ k := by
        intro hc
        have := (List.nodup_cons.mp hnd).1
        rw [hc] at this
        exact this hk
      rw [if_neg (by simp [hp1])]
      exact ih (List.nodup_cons.mp hnd).2 hmem

theorem mapGet_mapSet_self (m : List (α × ν)) (k : α) (v : ν) :
    mapGet (mapSet m k v) k = some v := by
  induction m with
  | nil => simp [mapSet, mapGet_cons]
  | cons p m ih =>
    cases h : p.1 == k with
    | true =>
      simp only [mapSet, h, if_true]
      rw [mapGet_cons]
      simp
    | false =>
      simp only [mapSet, h, Bool.false_eq_true, if_false]
      rw [show p = (p.1, p.2) from rfl, mapGet_cons, if_neg (by simp [h]), ih]

theorem mapGet_mapSet_ne (m : List (α × ν)) (k k2 : α) (v : ν) (hne : k2 ≠ k) :
    mapGet (mapSet m k v) k2 = mapGet m k2 := by
  have hbeq : (k == k2) = false := by
    cases hc : k == k2
    · rfl
    · exact absurd (beq_iff_eq.mp hc).symm hne
  induction m with
  | nil => simp [mapSet, mapGet_cons, hbeq]
  | cons p m ih =>
    cases h : p.1 == k with
    | true =>
      simp only [mapSet, h, if_true]
      rw [mapGet_cons, show p = (p.1, p.2) from rfl, mapGet_cons]
      have : (p.1 == k2) = false := by rw [beq_iff_eq.mp h]; exact hbeq
      rw [if_neg (by simp [hbeq]), if_neg (by simp [this])]
    | false =>
      simp only [mapSet, h, Bool.false_eq_true, if_false]
      rw [show p = (p.1, p.2) from rfl, mapGet_cons, mapGet_cons, ih]

theorem keys_mapSet (m : List (α × ν)) (k : α) (v : ν) :
    (mapSet m k v).map Prod.fst =
      if mapHas m k then m.map Prod.fst else m.map Prod.fst ++ [k] := by
  induction m with
  | nil => simp [mapSet, mapHas]
  | cons p m ih =>
    cases h : p.1 == k with
    | true =>
      simp only [mapSet, h, if_true]
      rw [show p = (p.1, p.2) from rfl, mapHas_cons]
      simp [h, beq_iff_eq.mp h]
    | false =>
      simp only [mapSet, h, Bool.false_eq_true, if_false]
      rw [show p = (p.1, p.2) from rfl, mapHas_cons]
      simp only [h, Bool.false_or, List.map_cons, ih]
      by_cases hm : mapHas m k = true <;> simp [hm]

theorem nodupKeys_mapSet (m : List (α × ν)) (k : α) (v : ν) (hnd : nodupKeys m) :
    nodupKeys (mapSet m k v) := by
  unfold nodupKeys at *
  rw [keys_mapSet]
  cases hm : mapHas m k
  · simp only [Bool.false_eq_true, if_false]
    have hk : k ∉ m.map Prod.fst := by
      intro hc
      have := (mapHas_iff_mem m k).mpr hc
      simp [this] at hm
    simp [List.nodup_append, hnd, hk]
  · simpa using hnd

theorem mem_mapSet (m : List (α × ν)) (k : α) (v : ν) (p : α × ν)
    (h : p ∈ mapSet m k v) : p = (k, v) ∨ p ∈ m := by
  induction m with
  | nil => simp [mapSet] at h; exact Or.inl h
  | cons q m ih =>
    cases hq : q.1 == k with
    | true =>
      simp only [mapSet, hq, if_true] at h
      rcases List.mem_cons.mp h with h | h
      · exact Or.inl h
      · exact Or.inr (List.mem_cons.mpr (Or.inr h))
    | false =>
      simp only [mapSet, hq, Bool.false_eq_true, if_false] at h
      rcases List.mem_cons.mp h with h | h
      · exact Or.inr (List.mem_cons.mpr (Or.inl h))
      · rcases ih h with h | h
        · exact Or.inl h
        · exact Or.inr (List.mem_cons.mpr (Or.inr h))

theorem mem_mapDelete (m : List (α × ν)) (k : α) (p : α × ν)
    (h : p ∈ mapDelete m k) : p ∈ m :=
  List.mem_of_mem_filter h

theorem mapGet_mapDelete_self (m : List (α × ν)) (k : α) :
    mapGet (mapDelete m k) k = none := by
  rw [mapGet_eq_none_iff]
  intro hc
  rcases List.mem_map.mp hc with ⟨p, hp, hfst⟩
  have := List.of_mem_filter hp
  rw [hfst] at this
  simp at this

theorem mapGet_mapDelete_ne (m : List (α × ν)) (k k2 : α) (hne : k2 ≠ k) :
    mapGet (mapDelete m k) k2 = mapGet m k2 := by
  induction m with
  | nil => rfl
  | cons p m ih =>
    cases h : p.1 == k with
    | true =>
      have hp1k : p.1 = k := beq_iff_eq.mp h
      have hp2 : (p.1 == k2) = false := by
        by_cases hc : p.1 = k2
        · exact absurd (hp1k ▸ hc : k = k2).symm hne
        · simp [hc]
      simp only [mapDelete, List.filter_cons, h, Bool.not_true, Bool.false_eq_true, if_false]
      rw [show p = (p.1, p.2) from rfl, mapGet_cons, if_neg (by simp [hp2])]
      exact ih
    | false =>
      simp only [mapDelete, List.filter_cons, h, Bool.not_false, if_true]
      rw [show p = (p.1, p.2) from rfl, mapGet_cons, mapGet_cons]
      unfold mapDelete at ih
      rw [ih]

theorem keys_mapDelete_sublist (m : List (α × ν)) (k : α) :
    ((mapDelete m k).map Prod.fst).Sublist (m.map Prod.fst) :=
  (List.filter_sublist m).map Prod.fst

theorem nodupKeys_mapDelete (m : List (α × ν)) (k : α) (hnd : nodupKeys m) :
    nodupKeys (mapDelete m k) :=
  List.Nodup.sublist (keys_mapDelete_sublist m k) hnd

end MapLemmas

/-! ### Reconciliation-loop lemmas -/

theorem coherent_mapSet (m : SyncedMap) (k : String) (v : TextDocument)
    (hm : coherentMap m) (hv : v.uri = k) : coherentMap (mapSet m k v) := by
  intro p hp
  rcases mem_mapSet m k v p hp with h | h
  · rw [h]; exact hv
  · exact hm p h

theorem coherent_mapDelete (m : SyncedMap) (k : String) (hm : coherentMap m) :
    coherentMap (mapDelete m k) :=
  fun p hp => hm p (mem_mapDelete m k p hp)

theorem phase1_fst_mapGet (N : SyncedMap) (hN : nodupKeys N) :
    ∀ (S : SyncedMap) (u : String),
      mapGet (phase1 S N).1 u = (mapGet N u).or (mapGet S u) := by
  induction N with
  | nil => intro S u; simp [phase1, mapGet_nil, Option.none_or]
  | cons q rest ih =>
    intro S u
    obtain ⟨k, d⟩ := q
    have hk : k ∉ rest.map Prod.fst := (List.nodup_cons.mp hN).1
    have hrest : nodupKeys rest := (List.nodup_cons.mp hN).2
    simp only [phase1]
    rw [ih hrest (mapSet S k d) u, mapGet_cons]
    by_cases h : k = u
    · subst h
      rw [if_pos (by simp)]
      rw [(mapGet_eq_none_iff rest k).mpr hk, Option.none_or,
        mapGet_mapSet_self]
      rfl
    · rw [if_neg (by simp [h]), mapGet_mapSet_ne S k u d (fun hc => h hc.symm)]

theorem phase1_events (N : SyncedMap) (hN : nodupKeys N) :
    ∀ S : SyncedMap,
      (phase1 S N).2.map Prod.fst =
        N.map fun p =>
          if (mapGet S p.1).isSome then Event.changed p.2 else Event.created p.2 := by
  induction N with
  | nil => intro S; simp [phase1]
  | cons q rest ih =>
    intro S
    obtain ⟨k, d⟩ := q
    have hk : k ∉ rest.map Prod.fst := (List.nodup_cons.mp hN).1
    have hrest : nodupKeys rest := (List.nodup_cons.mp hN).2
    simp only [phase1, List.map_cons]
    rw [ih hrest (mapSet S k d)]
    congr 1
    apply List.map_congr_left
    intro p hp
    have hne : p.1 ≠ k := by
      intro hc
      exact hk (hc ▸ List.mem_map.mpr ⟨p, hp, rfl⟩)
    rw [mapGet_mapSet_ne S k p.1 d hne]

theorem phase1_observed (N : SyncedMap) (hcoh : coherentMap N) :
    ∀ (S : SyncedMap) (q : Event × SyncedMap), q ∈ (phase1 S N).2 → observedOk q := by
  induction N with
  | nil => intro S q hq; simp [phase1] at hq
  | cons p rest ih =>
    intro S q hq
    obtain ⟨k, d⟩ := p
    have hd : d.uri = k := hcoh (k, d) (List.mem_cons_self _ _)
    have hrest : coherentMap rest := fun p hp => hcoh p (List.mem_cons.mpr (Or.inr hp))
    simp only [phase1] at hq
    rcases List.mem_cons.mp hq with hq | hq
    · subst hq
      by_cases h : (mapGet S k).isSome <;>
        simp only [h, if_true, if_false, Bool.false_eq_true, observedOk] <;>
        rw [hd, mapGet_mapSet_self]
    · exact ih hrest (mapSet S k d) q hq

theorem phase1_nodupKeys (N : SyncedMap) :
    ∀ S : SyncedMap, nodupKeys S → nodupKeys (phase1 S N).1 := by
  induction N with
  | nil => intro S hS; exact hS
  | cons p rest ih =>
    intro S hS
    obtain ⟨k, d⟩ := p
    exact ih (mapSet S k d) (nodupKeys_mapSet S k d hS)

theorem phase1_coherent (N : SyncedMap) (hcoh : coherentMap N) :
    ∀ S : SyncedMap, coherentMap S → coherentMap (phase1 S N).1 := by
  induction N with
  | nil => intro S hS; exact hS
  | cons p rest ih =>
    intro S hS
    obtain ⟨k, d⟩ := p
    have hd : d.uri = k := hcoh (k, d) (List.mem_cons_self _ _)
    have hrest : coherentMap rest := fun p hp => hcoh p (List.mem_cons.mpr (Or.inr hp))
    exact ih hrest (mapSet S k d) (coherent_mapSet S k d hS hd)

theorem phase2_fst_mapGet (N : SyncedMap) :
    ∀ (ks : List String) (S : SyncedMap) (u : String),
      mapGet (phase2 N S ks).1 u =
        if u ∈ ks ∧ mapHas N u = false then none else mapGet S u := by
  intro ks
  induction ks with
  | nil => intro S u; simp [phase2]
  | cons k rest ih =>
    intro S u
    simp only [phase2]
    by_cases hhas : mapHas N k = true
    · rw [if_pos hhas, ih S u]
      by_cases hu : u = k
      · subst hu
        rw [if_neg (fun hc => by rw [hc.2] at hhas; cases hhas),
          if_neg (fun hc => by rw [hc.2] at hhas; cases hhas)]
      · by_cases hmem : u ∈ rest ∧ mapHas N u = false
        · rw [if_pos hmem, if_pos ⟨List.mem_cons.mpr (Or.inr hmem.1), hmem.2⟩]
        · rw [if_neg hmem, if_neg (fun hc => by
            rcases List.mem_cons.mp hc.1 with h | h
            · exact hu h
            · exact hmem ⟨h, hc.2⟩)]
    · rw [if_neg hhas]
      simp only []
      rw [ih (mapDelete S k) u]
      by_cases hu : u = k
      · subst hu
        have hfalse : mapHas N u = false := by
          cases hh : mapHas N u
          · rfl
          · exact absurd hh hhas
        have hL : (if u ∈ rest ∧ mapHas N u = false then (none : Option TextDocument)
            else mapGet (mapDelete S u) u) = none := by
          by_cases hmem : u ∈ rest ∧ mapHas N u = false
          · rw [if_pos hmem]
          · rw [if_neg hmem]; exact mapGet_mapDelete_self S u
        rw [hL, if_pos ⟨List.mem_cons_self _ _, hfalse⟩]
      · rw [mapGet_mapDelete_ne S k u hu]
        by_cases hmem : u ∈ rest ∧ mapHas N u = false
        · rw [if_pos hmem, if_pos ⟨List.mem_cons.mpr (Or.inr hmem.1), hmem.2⟩]
        · rw [if_neg hmem, if_neg (fun hc => by
            rcases List.mem_cons.mp hc.1 with h | h
            · exact hu h
            · exact hmem ⟨h, hc.2⟩)]

theorem phase2_events (N : SyncedMap) :
    ∀ (ks : List String) (S : SyncedMap),
      (phase2 N S ks).2.map Prod.fst =
        (ks.filter fun k => !(mapHas N k)).map Event.deleted := by
  intro ks
  induction ks with
  | nil => intro S; simp [phase2]
  | cons k rest ih =>
    intro S
    simp only [phase2, List.filter_cons]
    by_cases hhas : mapHas N k = true
    · rw [if_pos hhas, ih S]
      rw [show (!mapHas N k) = false by rw [hhas]; rfl]
      simp
    · have hf : mapHas N k = false := by
        cases hh : mapHas N k
        · rfl
        · exact absurd hh hhas
      rw [if_neg hhas]
      simp only [List.map_cons]
      rw [ih (mapDelete S k)]
      rw [show (!mapHas N k) = true by rw [hf]; rfl]
      simp

theorem phase2_observed (N : SyncedMap) :
    ∀ (ks : List String) (S : SyncedMap) (q : Event × SyncedMap),
      q ∈ (phase2 N S ks).2 → observedOk q := by
  intro ks
  induction ks with
  | nil => intro S q hq; simp [phase2] at hq
  | cons k rest ih =>
    intro S q hq
    simp only [phase2] at hq
    by_cases hhas : mapHas N k = true
    · rw [if_pos hhas] at hq
      exact ih S q hq
    · rw [if_neg hhas] at hq
      simp only [] at hq
      rcases List.mem_cons.mp hq with hq | hq
      · subst hq
        show mapGet (mapDelete S k) k = none
        exact mapGet_mapDelete_self S k
      · exact ih (mapDelete S k) q hq

theorem phase2_nodupKeys (N : SyncedMap) :
    ∀ (ks : List String) (S : SyncedMap), nodupKeys S → nodupKeys (phase2 N S ks).1 := by
  intro ks
  induction ks with
  | nil => intro S hS; exact hS
  | cons k rest ih =>
    intro S hS
    simp only [phase2]
    by_cases hhas : mapHas N k = true
    · rw [if_pos hhas]; exact ih S hS
    · rw [if_neg hhas]; exact ih (mapDelete S k) (nodupKeys_mapDelete S k hS)

theorem phase2_coherent (N : SyncedMap) :
    ∀ (ks : List String) (S : SyncedMap), coherentMap S → coherentMap (phase2 N S ks).1 := by
  intro ks
  induction ks with
  | nil => intro S hS; exact hS
  | cons k rest ih =>
    intro S hS
    simp only [phase2]
    by_cases hhas : mapHas N k = true
    · rw [if_pos hhas]; exact ih S hS
    · rw [if_neg hhas]; exact ih (mapDelete S k) (coherent_mapDelete S k hS)

theorem reconcile_events (S N : SyncedMap) (hN : nodupKeys N) :
    (reconcile S N).2 =
      (N.map fun p =>
        if (mapGet S p.1).isSome then Event.changed p.2 else Event.created p.2)
      ++ ((S.map Prod.fst).filter fun u => !(mapHas N u)).map Event.deleted := by
  unfold reconcile reconcileI
  simp only [List.map_append]
  rw [phase1_events N hN S, phase2_events N (S.map Prod.fst) (phase1 S N).1]

theorem reconcile_fst_mapGet (S N : SyncedMap) (hN : nodupKeys N) (u : String) :
    mapGet (reconcile S N).1 u = mapGet N u := by
  unfold reconcile reconcileI
  simp only []
  rw [phase2_fst_mapGet N (S.map Prod.fst) (phase1 S N).1 u]
  by_cases hhas : mapHas N u = true
  · rw [if_neg (fun hc => by rw [hc.2] at hhas; cases hhas)]
    rw [phase1_fst_mapGet N hN S u]
    have : (mapGet N u).isSome = true := by rw [mapGet_isSome_eq_mapHas]; exact hhas
    cases ho : mapGet N u
    · rw [ho] at this; cases this
    · rfl
  · have hf : mapHas N u = false := by
      cases hh : mapHas N u
      · rfl
      · exact absurd hh hhas
    have hNnone : mapGet N u = none := by
      have := mapGet_isSome_eq_mapHas N u
      rw [hf] at this
      cases ho : mapGet N u
      · rfl
      · rw [ho] at this; cases this
    rw [hNnone]
    by_cases hmem : u ∈ S.map Prod.fst
    · rw [if_pos ⟨hmem, hf⟩]
    · rw [if_neg (fun hc => hmem hc.1)]
      rw [phase1_fst_mapGet N hN S u, hNnone, Option.none_or]
      exact (mapGet_eq_none_iff S u).mpr hmem

theorem reconcile_nodupKeys (S N : SyncedMap) (hS : nodupKeys S) :
    nodupKeys (reconcile S N).1 := by
  unfold reconcile reconcileI
  exact phase2_nodupKeys N (S.map Prod.fst) (phase1 S N).1 (phase1_nodupKeys N S hS)

theorem reconcile_coherent (S N : SyncedMap) (hS : coherentMap S) (hN : coherentMap N) :
    coherentMap (reconcile S N).1 := by
  unfold reconcile reconcileI
  exact phase2_coherent N (S.map Prod.fst) (phase1 S N).1 (phase1_coherent N hN S hS)

theorem reconcileI_observed (S N : SyncedMap) (hN : coherentMap N)
    (q : Event × SyncedMap) (hq : q ∈ (reconcileI S N).2) : observedOk q := by
  unfold reconcileI at hq
  simp only [List.mem_append] at hq
  rcases hq with hq | hq
  · exact phase1_observed N hN S q hq
  · exact phase2_observed N (S.map Prod.fst) (phase1 S N).1 q hq

/-! ### New-set construction lemmas -/

theorem insertDocs_nil (acc : SyncedMap) : insertDocs acc [] = acc := rfl

theorem insertDocs_cons (acc : SyncedMap) (d : TextDocument) (ds : List TextDocument) :
    insertDocs acc (d :: ds) = insertDocs (mapSet acc d.uri d) ds := rfl

theorem insertDocs_append (acc : SyncedMap) (xs ys : List TextDocument) :
    insertDocs acc (xs ++ ys) = insertDocs (insertDocs acc xs) ys :=
  List.foldl_append _ _ _ _

theorem foldl_insert_filterMap (f : Code → Bool) (g : Code → TextDocument) :
    ∀ (l : List Code) (acc : SyncedMap),
      l.foldl (fun acc vc => if f vc then mapSet acc (g vc).uri (g vc) else acc) acc =
        insertDocs acc (l.filterMap fun vc => if f vc then some (g vc) else none) := by
  intro l
  induction l with
  | nil => intro acc; rfl
  | cons c l ih =>
    intro acc
    simp only [List.foldl_cons, List.filterMap_cons]
    by_cases hc : f c = true
    · rw [if_pos hc, if_pos hc]
      exact ih (mapSet acc (g c).uri (g c))
    · rw [if_neg hc, if_neg hc]
      exact ih acc

theorem syncFile_eq_insert (selector : List Sel) (acc : SyncedMap) (sf : SourceFile) :
    syncFile selector acc sf = insertDocs acc (candidateDocs selector sf) := by
  unfold syncFile candidateDocs
  cases sf.generated with
  | some code =>
    simp only []
    rw [foldl_insert_filterMap (fun vc => matchLanguage selector vc.languageId)
      (fun vc => documentsGet (getVirtualCodeUri sf.sid vc.cid) vc.languageId vc.snapshot)
      (forEachEmbeddedCode code) acc]
  | none =>
    simp only []
    by_cases hm : matchLanguage selector (documentsGet sf.sid sf.languageId sf.snapshot).languageId = true
    · rw [if_pos hm, if_pos hm]
      rfl
    · rw [if_neg hm, if_neg hm]
      rfl

theorem computeNewVersions_eq_insert (selector : List Sel) :
    ∀ (files : List SourceFile) (acc : SyncedMap),
      files.foldl (syncFile selector) acc = insertDocs acc (matchedDocs selector files) := by
  intro files
  induction files with
  | nil => intro acc; rfl
  | cons sf files ih =>
    intro acc
    simp only [List.foldl_cons, matchedDocs, List.flatMap_cons]
    rw [insertDocs_append, ← syncFile_eq_insert selector acc sf]
    exact ih (syncFile selector acc sf)

theorem computeNewVersions_insert (selector : List Sel) (files : List SourceFile) :
    computeNewVersions selector files = insertDocs [] (matchedDocs selector files) :=
  computeNewVersions_eq_insert selector files []

theorem insertDocs_nodupKeys (ds : List TextDocument) :
    ∀ acc : SyncedMap, nodupKeys acc → nodupKeys (insertDocs acc ds) := by
  induction ds with
  | nil => intro acc h; exact h
  | cons d ds ih =>
    intro acc h
    rw [insertDocs_cons]
    exact ih (mapSet acc d.uri d) (nodupKeys_mapSet acc d.uri d h)

theorem insertDocs_coherent (ds : List TextDocument) :
    ∀ acc : SyncedMap, coherentMap acc → coherentMap (insertDocs acc ds) := by
  induction ds with
  | nil => intro acc h; exact h
  | cons d ds ih =>
    intro acc h
    rw [insertDocs_cons]
    exact ih (mapSet acc d.uri d) (coherent_mapSet acc d.uri d h rfl)

theorem computeNewVersions_nodupKeys (selector : List Sel) (files : List SourceFile) :
    nodupKeys (computeNewVersions selector files) := by
  rw [computeNewVersions_insert]
  exact insertDocs_nodupKeys _ [] (by simp [nodupKeys])

theorem computeNewVersions_coherent (selector : List Sel) (files : List SourceFile) :
    coherentMap (computeNewVersions selector files) := by
  rw [computeNewVersions_insert]
  exact insertDocs_coherent _ [] (by intro p hp; simp at hp)

theorem mapSet_of_not_has {α ν : Type} [BEq α] [LawfulBEq α]
    (m : List (α × ν)) (k : α) (v : ν) (h : mapHas m k = false) :
    mapSet m k v = m ++ [(k, v)] := by
  induction m with
  | nil => rfl
  | cons p m ih =>
    rw [show p = (p.1, p.2) from rfl, mapHas_cons] at h
    have h1 : (p.1 == k) = false := by
      cases hc : p.1 == k
      · rfl
      · rw [hc] at h; cases h
    have h2 : mapHas m k = false := by
      cases hc : mapHas m k
      · rfl
      · rw [hc] at h; simp at h
    simp only [mapSet, h1, Bool.false_eq_true, if_false, List.cons_append]
    rw [ih h2]

theorem mapGet_insertDocs (ds : List TextDocument) :
    ∀ (acc : SyncedMap) (u : String),
      mapGet (insertDocs acc ds) u =
        (ds.reverse.find? fun d => d.uri == u).or (mapGet acc u) := by
  induction ds with
  | nil => intro acc u; rw [insertDocs_nil]; simp
  | cons d ds ih =>
    intro acc u
    rw [insertDocs_cons, ih (mapSet acc d.uri d) u, List.reverse_cons, List.find?_append,
      Option.or_assoc]
    congr 1
    by_cases hu : d.uri = u
    · have hf : (List.find? (fun x => x.uri == u) [d]) = some d := by
        have : (d.uri == u) = true := beq_iff_eq.mpr hu
        simp [List.find?, this]
      rw [hf, ← hu, mapGet_mapSet_self]
      rfl
    · have hf : (List.find? (fun x => x.uri == u) [d]) = none := by
        have : (d.uri == u) = false := by
          cases hc : d.uri == u
          · rfl
          · exact absurd (beq_iff_eq.mp hc) hu
        simp [List.find?, this]
      rw [hf, mapGet_mapSet_ne acc d.uri u d (fun hc => hu hc.symm), Option.none_or]

theorem mapGet_computeNewVersions (selector : List Sel) (files : List SourceFile) (u : String) :
    mapGet (computeNewVersions selector files) u =
      (matchedDocs selector files).reverse.find? fun d => d.uri == u := by
  rw [computeNewVersions_insert, mapGet_insertDocs, mapGet_nil, Option.or_none]

/-! ### sync unfolding lemmas -/

theorem sync_of_noTypescript (selector : List Sel) (p : Project) (st : TrackerState)
    (h : p.hasTypescript = false) : sync selector p st = (st, []) := by
  simp [sync, h]

theorem sync_of_same_version (selector : List Sel) (p : Project) (st : TrackerState)
    (v : String) (hTs : p.hasTypescript = true) (hv : p.version = some v)
    (hlast : st.lastProjectVersion = some v) : sync selector p st = (st, []) := by
  simp [sync, hTs, hv, hlast]

theorem sync_of_update (selector : List Sel) (p : Project) (st : TrackerState)
    (hTs : p.hasTypescript = true)
    (hup : p.version = none ∨ p.version ≠ st.lastProjectVersion) :
    sync selector p st =
      ({ lastProjectVersion := p.version,
         syncedVersions :=
           (reconcile st.syncedVersions (computeNewVersions selector p.sourceFiles)).1 },
       (reconcile st.syncedVersions (computeNewVersions selector p.sourceFiles)).2) := by
  have hb : (p.version.isNone || !(p.version == st.lastProjectVersion)) = true := by
    rcases hup with h | h
    · rw [h]; rfl
    · have : (p.version == st.lastProjectVersion) = false := by
        cases hc : p.version == st.lastProjectVersion
        · rfl
        · exact absurd (beq_iff_eq.mp hc) h
      rw [this]
      simp
  simp [sync, hTs, hb]

/-! ### Event stream lemmas -/

theorem eventsFor_append (u : String) (xs ys : List Event) :
    eventsFor u (xs ++ ys) = eventsFor u xs ++ eventsFor u ys :=
  List.filter_append _ _

theorem runAlt_nil (b : Bool) : runAlt b [] = some b := by cases b <;> rfl

theorem runAlt_append :
    ∀ (xs : List Event) (b : Bool) (ys : List Event),
      runAlt b (xs ++ ys) = (runAlt b xs).bind fun b2 => runAlt b2 ys := by
  intro xs
  induction xs with
  | nil => intro b ys; cases b <;> rfl
  | cons e xs ih =>
    intro b ys
    cases b <;> cases e <;> simp [runAlt, ih]

theorem eventsFor_map_entries (u : String) (f2 : String → TextDocument → Event)
    (huri : ∀ k d, eventUri (f2 k d) = d.uri) :
    ∀ N : SyncedMap, nodupKeys N → coherentMap N →
      eventsFor u (N.map fun p => f2 p.1 p.2) =
        (match mapGet N u with
         | some d => [f2 u d]
         | none => []) := by
  intro N
  induction N with
  | nil => intro _ _; rfl
  | cons q rest ih =>
    intro hN hcoh
    obtain ⟨k, d⟩ := q
    have hd : d.uri = k := hcoh (k, d) (List.mem_cons_self _ _)
    have hk : k ∉ rest.map Prod.fst := (List.nodup_cons.mp hN).1
    have hrest := ih (List.nodup_cons.mp hN).2
      (fun p hp => hcoh p (List.mem_cons.mpr (Or.inr hp)))
    simp only [List.map_cons, eventsFor, List.filter_cons]
    rw [mapGet_cons]
    by_cases hku : k = u
    · subst hku
      rw [if_pos (by rw [huri k d, hd]; simp), if_pos (by simp)]
      have hnone : mapGet rest k = none := (mapGet_eq_none_iff rest k).mpr hk
      have := hrest
      unfold eventsFor at this
      rw [this, hnone]
    · rw [if_neg (by rw [huri k d, hd]; simp [hku]), if_neg (by simp [hku])]
      have := hrest
      unfold eventsFor at this
      rw [this]

theorem eventsFor_deleted_map (u : String) (g : String → Bool) :
    ∀ ks : List String, ks.Nodup →
      eventsFor u ((ks.filter g).map Event.deleted) =
        if u ∈ ks ∧ g u = true then [Event.deleted u] else [] := by
  intro ks
  induction ks with
  | nil => intro _; simp [eventsFor]
  | cons k rest ih =>
    intro hnd
    have hk : k ∉ rest := (List.nodup_cons.mp hnd).1
    have hrest := ih (List.nodup_cons.mp hnd).2
    rw [List.filter_cons]
    by_cases hg : g k = true
    · rw [if_pos hg]
      simp only [List.map_cons, eventsFor, List.filter_cons]
      by_cases hku : k = u
      · subst hku
        rw [if_pos (by simp [eventUri])]
        unfold eventsFor at hrest
        rw [hrest, if_neg (fun hc => hk hc.1), if_pos ⟨List.mem_cons_self _ _, hg⟩]
      · rw [if_neg (by simp [eventUri, hku])]
        unfold eventsFor at hrest
        rw [hrest]
        by_cases hmem : u ∈ rest ∧ g u = true
        · rw [if_pos hmem, if_pos ⟨List.mem_cons.mpr (Or.inr hmem.1), hmem.2⟩]
        · rw [if_neg hmem, if_neg (fun hc => by
            rcases List.mem_cons.mp hc.1 with h | h
            · exact hku h.symm
            · exact hmem ⟨h, hc.2⟩)]
    · rw [if_neg hg]
      rw [hrest]
      by_cases hku : k = u
      · subst hku
        rw [if_neg (fun hc => hk hc.1), if_neg (fun hc => by
            rw [hc.2] at hg; exact hg rfl)]
      · by_cases hmem : u ∈ rest ∧ g u = true
        · rw [if_pos hmem, if_pos ⟨List.mem_cons.mpr (Or.inr hmem.1), hmem.2⟩]
        · rw [if_neg hmem, if_neg (fun hc => by
            rcases List.mem_cons.mp hc.1 with h | h
            · exact hku h.symm
            · exact hmem ⟨h, hc.2⟩)]

theorem eventsFor_reconcile_map (u : String) (S N : SyncedMap)
    (hN : nodupKeys N) (hNcoh : coherentMap N) :
    eventsFor u
      (N.map fun p =>
        if (mapGet S p.1).isSome then Event.changed p.2 else Event.created p.2) =
      (match mapGet N u with
       | some d => [if (mapGet S u).isSome then Event.changed d else Event.created d]
       | none => []) := by
  have huri : ∀ (k : String) (d : TextDocument),
      eventUri (if (mapGet S k).isSome then Event.changed d else Event.created d) = d.uri := by
    intro k d
    by_cases h : (mapGet S k).isSome = true <;> simp [h, eventUri]
  have := eventsFor_map_entries u
    (fun k d => if (mapGet S k).isSome then Event.changed d else Event.created d)
    huri N hN hNcoh
  simpa using this

theorem sync_step_alt (selector : List Sel) (p : Project) (st : TrackerState) (u : String)
    (hS : nodupKeys st.syncedVersions) :
    runAlt ((mapGet st.syncedVersions u).isSome) (eventsFor u (sync selector p st).2) =
      some ((mapGet (sync selector p st).1.syncedVersions u).isSome) := by
  by_cases hTs : p.hasTypescript = true
  · by_cases hup : p.version = none ∨ p.version ≠ st.lastProjectVersion
    · rw [sync_of_update selector p st hTs hup]
      simp only []
      rw [reconcile_events st.syncedVersions (computeNewVersions selector p.sourceFiles)
        (computeNewVersions_nodupKeys selector p.sourceFiles)]
      rw [eventsFor_append, runAlt_append]
      rw [eventsFor_reconcile_map u st.syncedVersions
        (computeNewVersions selector p.sourceFiles)
        (computeNewVersions_nodupKeys selector p.sourceFiles)
        (computeNewVersions_coherent selector p.sourceFiles)]
      rw [eventsFor_deleted_map u
        (fun k => !(mapHas (computeNewVersions selector p.sourceFiles) k))
        (st.syncedVersions.map Prod.fst) hS]
      rw [reconcile_fst_mapGet st.syncedVersions (computeNewVersions selector p.sourceFiles)
        (computeNewVersions_nodupKeys selector p.sourceFiles) u]
      cases hNu : mapGet (computeNewVersions selector p.sourceFiles) u with
      | some d =>
        have hhas : mapHas (computeNewVersions selector p.sourceFiles) u = true := by
          rw [← mapGet_isSome_eq_mapHas, hNu]; rfl
        rw [if_neg (fun hc => by rw [hhas] at hc; simp at hc)]
        by_cases hb : (mapGet st.syncedVersions u).isSome = true
        · rw [hb]
          simp [runAlt]
        · have hbf : (mapGet st.syncedVersions u).isSome = false := by
            cases hx : (mapGet st.syncedVersions u).isSome
            · rfl
            · exact absurd hx hb
          rw [hbf]
          simp [runAlt]
      | none =>
        have hhas : mapHas (computeNewVersions selector p.sourceFiles) u = false := by
          rw [← mapGet_isSome_eq_mapHas, hNu]; rfl
        by_cases hb : (mapGet st.syncedVersions u).isSome = true
        · have hmem : u ∈ st.syncedVersions.map Prod.fst := by
            rw [← mapHas_iff_mem, ← mapGet_isSome_eq_mapHas]
            exact hb
          rw [if_pos ⟨hmem, by rw [hhas]; rfl⟩, hb]
          simp [runAlt]
        · have hbf : (mapGet st.syncedVersions u).isSome = false := by
            cases hx : (mapGet st.syncedVersions u).isSome
            · rfl
            · exact absurd hx hb
          have hmem : u ∉ st.syncedVersions.map Prod.fst := by
            rw [← mapHas_iff_mem, ← mapGet_isSome_eq_mapHas, hbf]
            simp
          rw [if_neg (fun hc => hmem hc.1), hbf]
          simp [runAlt]
    · push_neg at hup
      obtain ⟨hv, heq⟩ := hup
      cases hvv : p.version with
      | none => exact absurd hvv hv
      | some v =>
        rw [sync_of_same_version selector p st v hTs hvv (by rw [← heq, hvv])]
        simp [eventsFor, runAlt_nil]
  · have h : p.hasTypescript = false := by
      cases hts2 : p.hasTypescript
      · rfl
      · exact absurd hts2 hTs
    rw [sync_of_noTypescript selector p st h]
    simp [eventsFor, runAlt_nil]

theorem sync_nodupKeys (selector : List Sel) (p : Project) (st : TrackerState)
    (hS : nodupKeys st.syncedVersions) : nodupKeys (sync selector p st).1.syncedVersions := by
  by_cases hTs : p.hasTypescript = true
  · by_cases hup : p.version = none ∨ p.version ≠ st.lastProjectVersion
    · rw [sync_of_update selector p st hTs hup]
      exact reconcile_nodupKeys st.syncedVersions
        (computeNewVersions selector p.sourceFiles) hS
    · push_neg at hup
      obtain ⟨hv, heq⟩ := hup
      cases hvv : p.version with
      | none => exact absurd hvv hv
      | some v =>
        rw [sync_of_same_version selector p st v hTs hvv (by rw [← heq, hvv])]
        exact hS
  · have h : p.hasTypescript = false := by
      cases hts2 : p.hasTypescript
      · rfl
      · exact absurd hts2 hTs
    rw [sync_of_noTypescript selector p st h]
    exact hS

theorem sync_coherent (selector : List Sel) (p : Project) (st : TrackerState)
    (hS : coherentMap st.syncedVersions) : coherentMap (sync selector p st).1.syncedVersions := by
  by_cases hTs : p.hasTypescript = true
  · by_cases hup : p.version = none ∨ p.version ≠ st.lastProjectVersion
    · rw [sync_of_update selector p st hTs hup]
      exact reconcile_coherent st.syncedVersions
        (computeNewVersions selector p.sourceFiles) hS
        (computeNewVersions_coherent selector p.sourceFiles)
    · push_neg at hup
      obtain ⟨hv, heq⟩ := hup
      cases hvv : p.version with
      | none => exact absurd hvv hv
      | some v =>
        rw [sync_of_same_version selector p st v hTs hvv (by rw [← heq, hvv])]
        exact hS
  · have h : p.hasTypescript = false := by
      cases hts2 : p.hasTypescript
      · rfl
      · exact absurd hts2 hTs
    rw [sync_of_noTypescript selector p st h]
    exact hS

theorem syncTrace_alt (selector : List Sel) :
    ∀ (ps : List Project) (st : TrackerState), nodupKeys st.syncedVersions →
      ∀ u : String,
        runAlt ((mapGet st.syncedVersions u).isSome)
            (eventsFor u (syncTrace selector st ps).2) =
          some ((mapGet (syncTrace selector st ps).1.syncedVersions u).isSome) := by
  intro ps
  induction ps with
  | nil =>
    intro st hS u
    have h0 : syncTrace selector st [] = (st, []) := rfl
    rw [h0, show eventsFor u ([] : List Event) = [] from rfl, runAlt_nil]
  | cons p ps ih =>
    intro st hS u
    have h1 : syncTrace selector st (p :: ps) =
        ((syncTrace selector (sync selector p st).1 ps).1,
         (sync selector p st).2 ++ (syncTrace selector (sync selector p st).1 ps).2) := rfl
    rw [h1, eventsFor_append, runAlt_append, sync_step_alt selector p st u hS]
    simp only [Option.bind_some]
    exact ih (sync selector p st).1 (sync_nodupKeys selector p st hS) u

/-! ### Values-membership lemmas -/

theorem mem_values_iff {α ν : Type} [BEq α] [LawfulBEq α]
    (m : List (α × ν)) (hnd : nodupKeys m) (d : ν) :
    d ∈ m.map Prod.snd ↔ ∃ k : α, mapGet m k = some d := by
  constructor
  · intro h
    rcases List.mem_map.mp h with ⟨p, hp, hsnd⟩
    exact ⟨p.1, by
      rw [show p = (p.1, p.2) from rfl] at hp
      rw [mem_mapGet_of_nodup m p.1 p.2 hnd hp, hsnd]⟩
  · rintro ⟨k, hk⟩
    exact List.mem_map.mpr ⟨(k, d), mapGet_mem m k d hk, rfl⟩

theorem find?_eq_some_of_map_nodup {β γ : Type} [BEq γ] [LawfulBEq γ] (f : β → γ) :
    ∀ (ds : List β) (d : β), (ds.map f).Nodup → d ∈ ds →
      ds.find? (fun x => f x == f d) = some d := by
  intro ds
  induction ds with
  | nil => intro d _ h; simp at h
  | cons a ds ih =>
    intro d hnd hd
    rcases List.mem_cons.mp hd with h | h
    · subst h
      rw [List.find?_cons_of_pos _ (by simp)]
    · have hne : (f a == f d) = false := by
        cases hc : f a == f d
        · rfl
        · have hfd : f d ∈ ds.map f := List.mem_map.mpr ⟨d, h, rfl⟩
          have hfa : f a ∉ ds.map f := (List.nodup_cons.mp (by simpa using hnd)).1
          rw [beq_iff_eq.mp hc] at hfa
          exact absurd hfd hfa
      rw [List.find?_cons_of_neg _ (by simp [hne])]
      exact ih d (List.nodup_cons.mp (by simpa using hnd)).2 h

theorem mem_values_computeNewVersions (selector : List Sel) (files : List SourceFile)
    (hnodup : ((matchedDocs selector files).map TextDocument.uri).Nodup)
    (d : TextDocument) :
    d ∈ (computeNewVersions selector files).map Prod.snd ↔
      d ∈ matchedDocs selector files := by
  constructor
  · intro h
    rcases (mem_values_iff (computeNewVersions selector files)
      (computeNewVersions_nodupKeys selector files) d).mp h with ⟨k, hk⟩
    rw [mapGet_computeNewVersions selector files k] at hk
    exact List.mem_reverse.mp (List.mem_of_find?_eq_some hk)
  · intro h
    have hrevnd : ((matchedDocs selector files).reverse.map TextDocument.uri).Nodup := by
      rw [List.map_reverse]
      exact List.nodup_reverse.mpr hnodup
    have hfind := find?_eq_some_of_map_nodup TextDocument.uri
      (matchedDocs selector files).reverse d hrevnd (List.mem_reverse.mpr h)
    have hget : mapGet (computeNewVersions selector files) d.uri = some d := by
      rw [mapGet_computeNewVersions selector files d.uri]
      exact hfind
    exact List.mem_map.mpr ⟨(d.uri, d), mapGet_mem _ d.uri d hget, rfl⟩

theorem sync_final_mapGet (selector : List Sel) (p : Project) (st : TrackerState)
    (hTs : p.hasTypescript = true)
    (h : ∀ u, mapGet st.syncedVersions u =
      mapGet (computeNewVersions selector p.sourceFiles) u) :
    ∀ u, mapGet (sync selector p st).1.syncedVersions u =
      mapGet (computeNewVersions selector p.sourceFiles) u := by
  intro u
  by_cases hup : p.version = none ∨ p.version ≠ st.lastProjectVersion
  · rw [sync_of_update selector p st hTs hup]
    exact reconcile_fst_mapGet st.syncedVersions _
      (computeNewVersions_nodupKeys selector p.sourceFiles) u
  · push_neg at hup
    obtain ⟨hv, heq⟩ := hup
    cases hvv : p.version with
    | none => exact absurd hvv hv
    | some v =>
      rw [sync_of_same_version selector p st v hTs hvv (by rw [← heq, hvv])]
      exact h u

/-! ### Remaining helper lemmas -/

theorem forEachList_eq_flatMap :
    ∀ es : List Code, forEachEmbeddedCodeList es = es.flatMap forEachEmbeddedCode := by
  intro es
  induction es with
  | nil => rfl
  | cons c cs ih => rw [forEachEmbeddedCodeList, List.flatMap_cons, ih]

theorem find?_cons_pos {β : Type} (f : β → Bool) (a : β) (l : List β) (h : f a = true) :
    List.find? f (a :: l) = some a := by
  simp [List.find?, h]

theorem find?_cons_neg {β : Type} (f : β → Bool) (a : β) (l : List β) (h : f a = false) :
    List.find? f (a :: l) = List.find? f l := by
  simp [List.find?, h]

theorem toGen_mem (spans : List MappedSpan) (p g : Nat)
    (h : toGeneratedPosition spans p = some g) :
    ∃ s ∈ spans, spanContainsSource s p = true ∧
      g = s.generatedStart + (p - s.sourceStart) := by
  unfold toGeneratedPosition at h
  cases hf : spans.find? fun s => spanContainsSource s p with
  | none => rw [hf] at h; simp at h
  | some s =>
    rw [hf] at h
    refine ⟨s, List.mem_of_find?_eq_some hf, ?_, ?_⟩
    · have := List.find?_some hf
      simpa using this
    · simpa using h.symm

theorem contains_generated_of_source (s : MappedSpan) (p : Nat)
    (hlen : s.sourceEnd - s.sourceStart = s.generatedEnd - s.generatedStart)
    (h : spanContainsSource s p = true) :
    spanContainsGenerated s (s.generatedStart + (p - s.sourceStart)) = true := by
  unfold spanContainsSource at h
  unfold spanContainsGenerated
  simp only [Bool.and_eq_true, decide_eq_true_eq] at h ⊢
  omega

theorem wfSpans_tail (a : MappedSpan) (spans : List MappedSpan)
    (h : wfSpans (a :: spans)) : wfSpans spans :=
  ⟨fun s hs => h.1 s (List.mem_cons_of_mem a hs), (List.pairwise_cons.mp h.2).2⟩

theorem roundtrip_aux :
    ∀ spans : List MappedSpan, wfSpans spans → ∀ p : Nat,
      (∃ s ∈ spans, spanContainsSource s p = true) →
      (toGeneratedPosition spans p).bind (toSourcePosition spans) = some p := by
  intro spans
  induction spans with
  | nil =>
    rintro _ p ⟨s, hs, _⟩
    simp at hs
  | cons a spans ih =>
    rintro hwf p ⟨s, hs, hsp⟩
    by_cases ha : spanContainsSource a p = true
    · unfold toGeneratedPosition
      rw [find?_cons_pos (fun s => spanContainsSource s p) a spans ha]
      have hag := contains_generated_of_source a p (hwf.1 a (List.mem_cons_self _ _)) ha
      show toSourcePosition (a :: spans) (a.generatedStart + (p - a.sourceStart)) = some p
      unfold toSourcePosition
      rw [find?_cons_pos
        (fun s => spanContainsGenerated s (a.generatedStart + (p - a.sourceStart))) a spans hag]
      show some (a.sourceStart + (a.generatedStart + (p - a.sourceStart) - a.generatedStart))
        = some p
      unfold spanContainsSource at ha
      simp only [Bool.and_eq_true, decide_eq_true_eq] at ha
      congr 1
      omega
    · have hs2 : s ∈ spans := by
        rcases List.mem_cons.mp hs with h | h
        · rw [h] at hsp; exact absurd hsp ha
        · exact h
      have htail := wfSpans_tail a spans hwf
      have hih := ih htail p ⟨s, hs2, hsp⟩
      cases hg : toGeneratedPosition spans p with
      | none =>
        rw [hg] at hih
        simp at hih
      | some g =>
        obtain ⟨t, ht, htp, hgeq⟩ := toGen_mem spans p g hg
        have hrel := (List.pairwise_cons.mp hwf.2).1 t ht
        have htg := contains_generated_of_source t p (hwf.1 t (List.mem_cons_of_mem a ht)) htp
        have hag : spanContainsGenerated a g = false := by
          unfold spanContainsGenerated at htg ⊢
          simp only [Bool.and_eq_true, decide_eq_true_eq] at htg
          rw [hgeq]
          simp only [Bool.and_eq_false_iff, decide_eq_false_iff_not, not_le, not_lt]
          right
          omega
        have haf : spanContainsSource a p = false := by
          cases hx : spanContainsSource a p
          · rfl
          · exact absurd hx ha
        have hLgen : toGeneratedPosition (a :: spans) p = some g := by
          unfold toGeneratedPosition
          rw [find?_cons_neg (fun s => spanContainsSource s p) a spans haf]
          unfold toGeneratedPosition at hg
          exact hg
        rw [hLgen]
        have hsrc : toSourcePosition (a :: spans) g = toSourcePosition spans g := by
          unfold toSourcePosition
          rw [find?_cons_neg (fun s => spanContainsGenerated s g) a spans hag]
        have hbind : (some g).bind (toSourcePosition (a :: spans)) =
            toSourcePosition (a :: spans) g := rfl
        rw [hbind, hsrc]
        rw [hg] at hih
        have hbind2 : (some g).bind (toSourcePosition spans) = toSourcePosition spans g := rfl
        rw [hbind2] at hih
        exact hih

/-! ### Claim theorems -/

/-- C1: On every sync that performs reconciliation, the fired events are
exactly: for each entry of the new set, in new-set order, a "changed" event
when the URI is already tracked (even if content is byte-identical — the
event depends only on the presence of an old entry, never on content) and a
"created" event otherwise; followed by a "deleted" event for each key of the
old set absent from the new set, in old-set order.  In particular all
changed/created events precede all deleted events, and every event concerns
a URI of the old or the new set — no event is emitted for a URI absent from
both. -/
theorem c1_reconcile_event_semantics (S N : SyncedMap)
    (hN : nodupKeys N) (hNcoh : coherentMap N) :
    ((reconcile S N).2 =
      (N.map fun p =>
        if (mapGet S p.1).isSome then Event.changed p.2 else Event.created p.2)
      ++ ((S.map Prod.fst).filter fun u => !(mapHas N u)).map Event.deleted) ∧
    (∀ e ∈ (reconcile S N).2,
      eventUri e ∈ S.map Prod.fst ∨ eventUri e ∈ N.map Prod.fst) := by
  have heq := reconcile_events S N hN
  refine ⟨heq, ?_⟩
  intro e he
  rw [heq] at he
  rcases List.mem_append.mp he with h | h
  · rcases List.mem_map.mp h with ⟨q, hq, hfq⟩
    right
    have huri : eventUri
        (if (mapGet S q.1).isSome then Event.changed q.2 else Event.created q.2) = q.2.uri := by
      by_cases hb : (mapGet S q.1).isSome = true <;> simp [hb, eventUri]
    rw [← hfq, huri, hNcoh q hq]
    exact List.mem_map.mpr ⟨q, hq, rfl⟩
  · rcases List.mem_map.mp h with ⟨k, hk, hfk⟩
    left
    rw [← hfk]
    show k ∈ S.map Prod.fst
    exact List.mem_of_mem_filter hk

/-- Witness for C1 at a concrete old set `{a, c}` and new set `{a, b}`:
events are `[changed a, created b, deleted c]` in that order. -/
theorem c1_witness :
    (reconcile oldSetW newSetW).2 =
      (newSetW.map fun p =>
        if (mapGet oldSetW p.1).isSome then Event.changed p.2 else Event.created p.2)
      ++ ((oldSetW.map Prod.fst).filter fun u => !(mapHas newSetW u)).map Event.deleted :=
  (c1_reconcile_event_semantics oldSetW newSetW (by unfold nodupKeys; decide)
    (by unfold coherentMap; decide)).1

/-- C2 counterexample: when the project host exposes no version token
(`getProjectVersion` absent, `newProjectVersion === undefined`), `sync`
always reconciles — calling it twice with the token unchanged (still
undefined) makes the second call emit a "changed" event, not zero events. -/
theorem c2_counterexample :
    projNoVersion.version = none ∧
    (sync selMd projNoVersion (sync selMd projNoVersion initialTracker).1).2 =
      [Event.changed (documentsGet "f.md" "markdown" { version := 1, text := "x" })] ∧
    (sync selMd projNoVersion (sync selMd projNoVersion initialTracker).1).2 ≠ [] := by
  refine ⟨rfl, by decide, by decide⟩

/-- C2 (amended): calling `sync()` twice with no intervening change of a
*defined* project version token makes the second call a no-op — it returns
immediately after reading the version token, emits zero events and leaves
the tracker state unchanged.  (When the token is `undefined` the code treats
every sync as stale, see the counterexample.) -/
theorem c2_sync_idempotent (selector : List Sel) (p : Project) (st : TrackerState)
    (h : p.version.isSome = true) :
    sync selector p (sync selector p st).1 = ((sync selector p st).1, []) := by
  cases hv : p.version with
  | none => rw [hv] at h; cases h
  | some v =>
    by_cases hTs : p.hasTypescript = true
    · have hlast : (sync selector p st).1.lastProjectVersion = some v := by
        by_cases hup : p.version = none ∨ p.version ≠ st.lastProjectVersion
        · rw [sync_of_update selector p st hTs hup]
          exact hv
        · push_neg at hup
          rw [sync_of_same_version selector p st v hTs hv (by rw [← hup.2, hv])]
          rw [← hup.2, hv]
      exact sync_of_same_version selector p (sync selector p st).1 v hTs hv hlast
    · have h2 : p.hasTypescript = false := by
        cases hx : p.hasTypescript
        · rfl
        · exact absurd hx hTs
      exact sync_of_noTypescript selector p (sync selector p st).1 h2

/-- Witness for C2 (amended) at the one-file project with version token
`"v1"`. -/
theorem c2_witness :
    sync selMd projV (sync selMd projV initialTracker).1 =
      ((sync selMd projV initialTracker).1, []) :=
  c2_sync_idempotent selMd projV initialTracker (by decide)

/-- C6: `sync`'s recomputation walks every source file; a generated tree is
traversed in pre-order (the root first, then each child subtree recursively,
left to right — first conjunct), `syncFile` inserts exactly the candidate
documents of the traversal into the accumulating map (second conjunct,
`candidateDocs` also covering the treat-the-file-itself case for a source
file with no tree), and a lookup in the finished new set returns precisely
the last-inserted matching candidate keyed by its derived URI (third
conjunct). -/
theorem c6_preorder_walk_and_insertion :
    (∀ (i l : String) (s : Snapshot) (es : List Code),
      forEachEmbeddedCode (Code.node i l s es) =
        Code.node i l s es :: es.flatMap forEachEmbeddedCode) ∧
    (∀ (selector : List Sel) (acc : SyncedMap) (sf : SourceFile),
      syncFile selector acc sf = insertDocs acc (candidateDocs selector sf)) ∧
    (∀ (selector : List Sel) (files : List SourceFile) (u : String),
      mapGet (computeNewVersions selector files) u =
        (matchedDocs selector files).reverse.find? fun d => d.uri == u) := by
  refine ⟨?_, syncFile_eq_insert, mapGet_computeNewVersions⟩
  intro i l s es
  rw [forEachEmbeddedCode, forEachList_eq_flatMap]

/-- C9: the two construction-time asserts run before any tracker state
exists: a missing `fs` capability aborts with its diagnostic, a missing
`onDidChangeWatchedFiles` aborts with its diagnostic, and with both present
construction succeeds with the fresh initial tracker state (no error). -/
theorem c9_create_asserts (env : Env) :
    createInstance env =
      (if env.hasFs = false then Except.error "context.env.fs must be defined"
       else if env.hasOnDidChangeWatchedFiles = false then
         Except.error "context.env.fs.onDidChangeWatchedFiles must be defined"
       else Except.ok initialTracker) := by
  cases hf : env.hasFs <;> cases hw : env.hasOnDidChangeWatchedFiles <;>
    simp [createInstance, assertCapability, hf, hw]

/-- C10: the watcher bridge is asymmetric — a Changed or Created watched-file
event produces a document event only when the URI resolves to a known source
file (`Option.elim` collapsing to `[]` otherwise), while a Deleted event
always fires `deleted` with the parsed URI, with no resolution check at
all. -/
theorem c10_watcher_asymmetry (p : Project) (u : String) :
    (handleFileChange p { ctype := FileChangeType.changed, uri := u } =
      (getTextDocument p u false).elim [] fun d => [Event.changed d]) ∧
    (handleFileChange p { ctype := FileChangeType.created, uri := u } =
      (getTextDocument p u false).elim [] fun d => [Event.created d]) ∧
    (handleFileChange p { ctype := FileChangeType.deleted, uri := u } = [Event.deleted u]) ∧
    (fileWatcherHandle p [{ ctype := FileChangeType.deleted, uri := u }] = [Event.deleted u]) := by
  refine ⟨?_, ?_, rfl, ?_⟩
  · cases h : getTextDocument p u false <;> simp [handleFileChange, h]
  · cases h : getTextDocument p u false <;> simp [handleFileChange, h]
  · simp [fileWatcherHandle, handleFileChange]

/-- C3 counterexample: the claim quantifies over all document events of the
tracker's lifetime, but the file-watcher bridge fires `deleted` for any
watched Deleted URI with no tracking check: a lifetime consisting of one
watched deletion of a never-created URI emits a per-URI sequence
`[deleted]`, which the created/changed/deleted alternation automaton
rejects (a delete with no prior create, not starting with created). -/
theorem c3_counterexample :
    eventsFor "ghost"
        (fileWatcherHandle { hasTypescript := true, version := none, sourceFiles := [] }
          [{ ctype := FileChangeType.deleted, uri := "ghost" }]) =
      [Event.deleted "ghost"] ∧
    runAlt false [Event.deleted "ghost"] = none := by
  refine ⟨by decide, rfl⟩

/-- C3 (amended): restricted to the events emitted by `sync` reconciliation
(the file-watcher bridge forwards watched-file events verbatim and is
exempt), for every URI the event stream of any sequence of syncs from
construction is a legal alternation: it starts with "created", never has two
"created" without an intervening "deleted", never a "deleted" or "changed"
while untracked, and the automaton's final state records exactly whether the
URI is in the tracked set — so a URI that has left the set has "deleted" as
its last event. -/
theorem c3_sync_event_alternation (selector : List Sel) (ps : List Project) (u : String) :
    runAlt false (eventsFor u (syncTrace selector initialTracker ps).2) =
      some ((mapGet (syncTrace selector initialTracker ps).1.syncedVersions u).isSome) := by
  have h := syncTrace_alt selector ps initialTracker
    (by unfold nodupKeys initialTracker; simp) u
  have h0 : (mapGet initialTracker.syncedVersions u).isSome = false := rfl
  rwa [h0] at h

/-- C4: after a sync against a project state with a fresh (or absent)
version token, `getAll` — which itself re-syncs and then returns
`syncedVersions.values()` — contains a document exactly when some source
file of the project contributes it as a matching candidate (a matching node
of its pre-order walk, or the file itself when it has no generated tree):
no extras, no omissions.  Distinct derived URIs are assumed, as collisions
would make later nodes overwrite earlier ones in the keyed map. -/
theorem c4_getAll_exact (selector : List Sel) (p : Project) (st : TrackerState)
    (d : TextDocument) (hTs : p.hasTypescript = true)
    (hfresh : p.version = none ∨ p.version ≠ st.lastProjectVersion)
    (hS : nodupKeys st.syncedVersions)
    (hnodup : ((matchedDocs selector p.sourceFiles).map TextDocument.uri).Nodup) :
    d ∈ (getAllMarkdownDocuments selector p (sync selector p st).1).2 ↔
      ∃ sf ∈ p.sourceFiles, d ∈ candidateDocs selector sf := by
  have hbase : ∀ u, mapGet (sync selector p st).1.syncedVersions u =
      mapGet (computeNewVersions selector p.sourceFiles) u := by
    intro u
    rw [sync_of_update selector p st hTs hfresh]
    exact reconcile_fst_mapGet st.syncedVersions _
      (computeNewVersions_nodupKeys selector p.sourceFiles) u
  have h2 : ∀ u, mapGet (sync selector p (sync selector p st).1).1.syncedVersions u =
      mapGet (computeNewVersions selector p.sourceFiles) u :=
    sync_final_mapGet selector p (sync selector p st).1 hTs hbase
  have hnd2 : nodupKeys (sync selector p (sync selector p st).1).1.syncedVersions :=
    sync_nodupKeys selector p (sync selector p st).1
      (sync_nodupKeys selector p st hS)
  have hgetAll : (getAllMarkdownDocuments selector p (sync selector p st).1).2 =
      (sync selector p (sync selector p st).1).1.syncedVersions.map Prod.snd := rfl
  rw [hgetAll]
  rw [mem_values_iff _ hnd2 d]
  have hiff : (∃ k, mapGet (sync selector p (sync selector p st).1).1.syncedVersions k
        = some d) ↔
      ∃ k, mapGet (computeNewVersions selector p.sourceFiles) k = some d := by
    constructor
    · rintro ⟨k, hk⟩; exact ⟨k, by rw [← h2 k]; exact hk⟩
    · rintro ⟨k, hk⟩; exact ⟨k, by rw [h2 k]; exact hk⟩
  rw [hiff]
  rw [← mem_values_iff _ (computeNewVersions_nodupKeys selector p.sourceFiles) d]
  rw [mem_values_computeNewVersions selector p.sourceFiles hnodup d]
  unfold matchedDocs
  exact List.mem_flatMap

/-- Witness for C4: in the two-file project, the embedded markdown document
of the generated tree is returned by `getAll` after sync. -/
theorem c4_witness :
    docInner ∈ (getAllMarkdownDocuments selMd projMix (sync selMd projMix initialTracker).1).2 ↔
      ∃ sf ∈ projMix.sourceFiles, docInner ∈ candidateDocs selMd sf :=
  c4_getAll_exact selMd projMix initialTracker docInner (by decide)
    (Or.inr (by decide)) (by unfold nodupKeys initialTracker; simp) (by decide)

/-- C5 counterexample: reconciliation mutates `syncedVersions` in place
while firing listeners, so the stored tracked set is *not* replaced only
after reconciliation completes: with old set `{a}` and new set `{b}`, the
listener fired for `created b` already observes `{a, b}` — a partially
updated set, different from the old set (and from the final set `{b}`). -/
theorem c5_counterexample :
    (reconcileI oldSetC newSetC).2.map Prod.snd =
      [[("a", docA1), ("b", docB1)], [("b", docB1)]] ∧
    [("a", docA1), ("b", docB1)] ≠ oldSetC ∧
    (reconcileI oldSetC newSetC).1 = [("b", docB1)] := by
  refine ⟨by decide, by decide, by decide⟩

/-- C5 (amended): during a sync the stored tracked set is updated
incrementally, entry by entry, as reconciliation fires listeners: at the
moment a changed/created listener fires, the fired document's entry has
already been set to its new value; at the moment a deleted listener fires,
the entry has already been removed; and once reconciliation completes the
stored map agrees with the newly computed set on every URI. -/
theorem c5_reconcile_incremental (S N : SyncedMap)
    (hN : nodupKeys N) (hNcoh : coherentMap N) :
    (∀ q ∈ (reconcileI S N).2, observedOk q) ∧
    (∀ u, mapGet (reconcileI S N).1 u = mapGet N u) := by
  refine ⟨fun q hq => reconcileI_observed S N hNcoh q hq, fun u => ?_⟩
  exact reconcile_fst_mapGet S N hN u

/-- Witness for C5 (amended) at old set `{a}`, new set `{b}`: the created
listener observes the already-inserted entry, and the final map agrees with
the new set at `"b"`. -/
theorem c5_witness :
    observedOk (Event.created docB1, [("a", docA1), ("b", docB1)]) ∧
    mapGet (reconcileI oldSetC newSetC).1 "b" = mapGet newSetC "b" :=
  ⟨(c5_reconcile_incremental oldSetC newSetC (by unfold nodupKeys; decide)
      (by unfold coherentMap; decide)).1
      (Event.created docB1, [("a", docA1), ("b", docB1)]) (by decide),
   (c5_reconcile_incremental oldSetC newSetC (by unfold nodupKeys; decide)
      (by unfold coherentMap; decide)).2 "b"⟩

/-- C7: the snapshot-store get.  For the json cache (`getJsonDocument`): a
cache entry whose stored version token equals the document's version is
returned as is (first conjunct); a stale entry is replaced by a fresh parse
(second conjunct); and a repeated call with the same document and version is
idempotent — it returns the same cached result and leaves the cache
unchanged (third conjunct).  The vetur cache (`getHtmlDocument`), keyed
purely by object identity with no version check, is likewise idempotent
(fourth conjunct). -/
theorem c7_snapshot_cache_contract (selector : List Sel)
    (cache : List (Nat × (Nat × JSONDocument))) (d : SimpleDoc)
    (hcache : List (Nat × HTMLDocument)) (hd : SimpleDoc) :
    (∀ cdoc : JSONDocument, matchLanguage selector d.languageId = true →
      mapGet cache d.oid = some (d.version, cdoc) →
      getJsonDocument selector cache d = (some cdoc, cache)) ∧
    (∀ (v : Nat) (cdoc : JSONDocument), matchLanguage selector d.languageId = true →
      mapGet cache d.oid = some (v, cdoc) → v ≠ d.version →
      getJsonDocument selector cache d =
        (some (parseJSONDocument d), mapSet cache d.oid (d.version, parseJSONDocument d))) ∧
    (getJsonDocument selector (getJsonDocument selector cache d).2 d =
      ((getJsonDocument selector cache d).1, (getJsonDocument selector cache d).2)) ∧
    (getHtmlDocument (getHtmlDocument hcache hd).2 hd =
      ((getHtmlDocument hcache hd).1, (getHtmlDocument hcache hd).2)) := by
  refine ⟨?_, ?_, ?_, ?_⟩
  · intro cdoc hm hc
    simp [getJsonDocument, hm, hc]
  · intro v cdoc hm hc hne
    have hv : (v == d.version) = false := by
      cases hx : v == d.version
      · rfl
      · exact absurd (beq_iff_eq.mp hx) hne
    simp [getJsonDocument, hm, hc, hv]
  · by_cases hm : matchLanguage selector d.languageId = true
    · cases hc : mapGet cache d.oid with
      | some pr =>
        obtain ⟨cv, cdoc⟩ := pr
        by_cases hv : cv = d.version
        · subst hv
          have e1 : getJsonDocument selector cache d = (some cdoc, cache) := by
            simp [getJsonDocument, hm, hc]
          rw [e1]
          exact e1
        · have hvb : (cv == d.version) = false := by
            cases hx : cv == d.version
            · rfl
            · exact absurd (beq_iff_eq.mp hx) hv
          have e1 : getJsonDocument selector cache d =
              (some (parseJSONDocument d),
               mapSet cache d.oid (d.version, parseJSONDocument d)) := by
            simp [getJsonDocument, hm, hc, hvb]
          rw [e1]
          simp [getJsonDocument, hm, mapGet_mapSet_self]
      | none =>
        have e1 : getJsonDocument selector cache d =
            (some (parseJSONDocument d),
             mapSet cache d.oid (d.version, parseJSONDocument d)) := by
          simp [getJsonDocument, hm, hc]
        rw [e1]
        simp [getJsonDocument, hm, mapGet_mapSet_self]
    · have hmf : matchLanguage selector d.languageId = false := by
        cases hx : matchLanguage selector d.languageId
        · rfl
        · exact absurd hx hm
      have e1 : getJsonDocument selector cache d = (none, cache) := by
        simp [getJsonDocument, hmf]
      rw [e1]
      exact e1
  · by_cases hm : hd.languageId = "html"
    · cases hc : mapGet hcache hd.oid with
      | some h =>
        have e1 : getHtmlDocument hcache hd = (some h, hcache) := by
          simp [getHtmlDocument, hm, hc]
        rw [e1]
        exact e1
      | none =>
        have e1 : getHtmlDocument hcache hd =
            (some (parseHTMLDocument hd), mapSet hcache hd.oid (parseHTMLDocument hd)) := by
          simp [getHtmlDocument, hm, hc]
        rw [e1]
        simp [getHtmlDocument, hm, mapGet_mapSet_self]
    · have e1 : getHtmlDocument hcache hd = (none, hcache) := by
        simp [getHtmlDocument, hm]
      rw [e1]
      exact e1

/-- Witness for C7: a version-1 hit returns the cached parse unchanged; an
in-place edit to version 2 (same object identity) replaces the entry; the
repeated call from the empty caches is idempotent for both stores. -/
theorem c7_witness :
    (getJsonDocument selJson cacheJ sdoc1 = (some (parseJSONDocument sdoc1), cacheJ)) ∧
    (getJsonDocument selJson cacheJ sdoc2 =
      (some (parseJSONDocument sdoc2),
       mapSet cacheJ sdoc2.oid (sdoc2.version, parseJSONDocument sdoc2))) ∧
    (getJsonDocument selJson (getJsonDocument selJson [] sdoc1).2 sdoc1 =
      ((getJsonDocument selJson [] sdoc1).1, (getJsonDocument selJson [] sdoc1).2)) ∧
    (getHtmlDocument (getHtmlDocument [] hdoc1).2 hdoc1 =
      ((getHtmlDocument [] hdoc1).1, (getHtmlDocument [] hdoc1).2)) :=
  ⟨(c7_snapshot_cache_contract selJson cacheJ sdoc1 [] hdoc1).1
      (parseJSONDocument sdoc1) (by decide) (by decide),
   (c7_snapshot_cache_contract selJson cacheJ sdoc2 [] hdoc1).2.1
      1 (parseJSONDocument sdoc1) (by decide) (by decide) (by decide),
   (c7_snapshot_cache_contract selJson [] sdoc1 [] hdoc1).2.2.1,
   (c7_snapshot_cache_contract selJson [] sdoc1 [] hdoc1).2.2.2⟩

/-- C8 (position mapper modelled from the spec): for a well-formed span list
(verbatim-length spans, sorted and non-overlapping in both coordinate
spaces), any source position inside some span's source range round-trips —
`toSourcePosition (toGeneratedPosition p) = p` — and a position in a gap
outside every span maps to `none`. -/
theorem c8_position_roundtrip (spans : List MappedSpan) (p : Nat) (hwf : wfSpans spans) :
    ((∃ s ∈ spans, spanContainsSource s p = true) →
      (toGeneratedPosition spans p).bind (toSourcePosition spans) = some p) ∧
    ((∀ s ∈ spans, spanContainsSource s p = false) →
      toGeneratedPosition spans p = none) := by
  refine ⟨fun h => roundtrip_aux spans hwf p h, fun h => ?_⟩
  unfold toGeneratedPosition
  have hnone : spans.find? (fun s => spanContainsSource s p) = none :=
    List.find?_eq_none.mpr fun x hx => by rw [h x hx]; simp
  rw [hnone]
  rfl

/-- Witness for C8 at the spec's example span (source `[5,15)`, generated
`[0,10)`): position 8 round-trips and position 20 is an unmapped gap. -/
theorem c8_witness :
    ((toGeneratedPosition spansW 8).bind (toSourcePosition spansW) = some 8) ∧
    toGeneratedPosition spansW 20 = none := by
  have hwf : wfSpans spansW := ⟨by decide, List.pairwise_singleton _ _⟩
  exact ⟨(c8_position_roundtrip spansW 8 hwf).1
      ⟨{ sourceStart := 5, sourceEnd := 15, generatedStart := 0, generatedEnd := 10 },
        by decide, by decide⟩,
    (c8_position_roundtrip spansW 20 hwf).2 (by decide)⟩
